import Mathlib

/-!
Verification of the Brill part-of-speech tagger implementation in
`src/brill_tagger.py` against its natural-language specification.

The Python source is shallowly embedded below.  Python strings are `String`
(or `List Char` where character-level regex behaviour matters), Python dicts
are insertion-ordered association lists (`Dict`), and Python's dynamic
failures (`NameError`, `TypeError`, `IndexError`) are modelled with
`Except PyError`.  Each embedded definition carries a comment pointing at the
lines of the source it translates.
-/

set_option autoImplicit false

namespace Brill

/-- Kinds of run-time errors raised by the Python source: a lookup of an
unbound name, a call with arguments of the wrong type or arity, and an
out-of-range string index. -/
inductive PyError : Type where
  | nameError : PyError
  | typeError : PyError
  | indexError : PyError
deriving DecidableEq, Repr

instance {ε α : Type} [DecidableEq ε] [DecidableEq α] : DecidableEq (Except ε α) := fun x y =>
  match x, y with
  | .ok a, .ok b => if h : a = b then isTrue (by simp [h]) else isFalse (by simp [h])
  | .error e, .error f => if h : e = f then isTrue (by simp [h]) else isFalse (by simp [h])
  | .ok _, .error _ => isFalse (by simp)
  | .error _, .ok _ => isFalse (by simp)

/-- A Python `dict` modelled as an insertion-ordered association list with
pairwise-distinct keys (every dict built below keeps its keys distinct). -/
abbrev Dict (α β : Type) : Type := List (α × β)

/-- Lookup `d[k]` (as an `Option`, `none` for a missing key). -/
def dget {α β : Type} [BEq α] (d : Dict α β) (k : α) : Option β :=
  match d.find? (fun p => p.1 == k) with
  | some p => some p.2
  | none => none

/-- Membership test `k in d`. -/
def dhas {α β : Type} [BEq α] (d : Dict α β) (k : α) : Bool :=
  (dget d k).isSome

/-- Assignment `d[k] = v`: an existing key keeps its position (Python dicts
preserve insertion order on update), a new key is appended at the end. -/
def dset {α β : Type} [BEq α] (d : Dict α β) (k : α) (v : β) : Dict α β :=
  if dhas d k then d.map (fun p => if p.1 == k then (k, v) else p) else d ++ [(k, v)]

/-- Line 15 of the source: `BROWNTAGS_PROPERNOUN = 'NP'`. -/
def BROWNTAGS_PROPERNOUN : String := "NP"

/-- Line 21: `get_tagset(corpus)` returns `set([tag for _, tag in corpus])`.
Python's `set` only forgets multiplicity and order; every property stated
below uses the tag set through membership or emptiness, both of which agree
with the plain list of second components, so the set is modelled as that
list. -/
def get_tagset (corpus : List (String × String)) : List String :=
  corpus.map Prod.snd

/-- Lines 33-37: `gen_tagcnts(corpus)`.  First `d = \x7bw: \x7b\x7d for w,_ in corpus\x7d`
seeds every corpus word with an empty inner dict; then for each `(w, t)` the
update is `d[w][t] = (d[w][t]+1) if (t in d[w]) else 0` — note the `else 0`:
the first occurrence of a tag is recorded as `0`, not `1`.  The `none`
branch of the inner match is dead code (every corpus word was seeded), kept
only to make the function total. -/
def gen_tagcnts (corpus : List (String × String)) : Dict String (Dict String Nat) :=
  let d0 : Dict String (Dict String Nat) :=
    corpus.foldl (fun d wt => dset d wt.1 []) []
  corpus.foldl
    (fun d wt =>
      match dget d wt.1 with
      | some m =>
        dset d wt.1 (dset m wt.2 (match dget m wt.2 with | some n => n + 1 | none => 0))
      | none => d)
    d0

/-- Lines 58-63: `max_elem(d)` scans the dict in insertion order starting
from `max_k, max_v = None, 0` and keeps a key only when its value is
strictly greater than the current maximum; it returns `None` (here `none`)
when no value exceeds `0`. -/
def max_elem (d : Dict String Nat) : Option String :=
  (d.foldl (fun acc kv => if kv.2 > acc.2 then (some kv.1, kv.2) else acc)
    ((none : Option String), 0)).1

/-- Line 96: `most_likely_tag = \x7bw: max_elem(tag_cnts[w]) for w in tag_cnts\x7d`.
The keys of `gen_tagcnts` are distinct, so the dict comprehension is a map
over the entries.  Values are `Option String` because `max_elem` can return
`None`. -/
def most_likely_tag (corpus : List (String × String)) : Dict String (Option String) :=
  (gen_tagcnts corpus).map (fun p => (p.1, max_elem p.2))

/-- Lines 23-29: `initial_tagger(word, most_likely_tag, tag_set)`.  A seen
word returns its `most_likely_tag` entry (which may be Python `None`); an
unseen word is tested with `("A" <= word[0]) and (word[0] <= "Z")` — an
`IndexError` on the empty word — and capitalised words get `'NP'`; any other
unseen word gets `random.sample(tag_set, 1)[0]`.  The value produced by that
random draw is passed in as `pick`; theorems about the random branch add the
hypothesis `pick ∈ tag_set` where it matters. -/
def initial_tagger (word : String) (mlt : Dict String (Option String))
    (tag_set : List String) (pick : String) : Except PyError (Option String) :=
  match dget mlt word with
  | some v => .ok v
  | none =>
    match word.data with
    | [] => .error .indexError
    | c :: _ =>
      if 'A' ≤ c ∧ c ≤ 'Z' then .ok (some BROWNTAGS_PROPERNOUN)
      else
        let _ := tag_set
        .ok (some pick)

/-- Line 100: `x = [initial_tagger(word, most_likely_tag, tag_set) for word, _
in patch_corpus]`.  The comprehension propagates the first raised error.
`picks i` is the value `random.sample` would produce at position `i`; a
position whose word is seen or capitalised never consults it. -/
def gen_x (mlt : Dict String (Option String)) (tag_set : List String) :
    List String → (Nat → String) → Except PyError (List (Option String))
  | [], _ => .ok []
  | w :: ws, picks => do
    let t ← initial_tagger w mlt tag_set (picks 0)
    let rest ← gen_x mlt tag_set ws (fun i => picks (i + 1))
    pure (t :: rest)

/-- A word whose first character lies between `A` and `Z`; the condition of
line 26 of the source, as a Boolean on whole words (false on the empty
word). -/
def startsUpper (w : String) : Bool :=
  match w.data with
  | [] => false
  | c :: _ => decide ('A' ≤ c ∧ c ≤ 'Z')

/-- Lines 65-66: `errors(tagged, actual)` is
`[i for i in len(x) if tag(i, tagged) != tag(i, actual)]`.  The name `x` is
bound neither in the function body nor at module scope, so evaluating the
comprehension's iterable `len(x)` raises `NameError` on every call (and even
with `x` bound, `for i in len(x)` would iterate over an `int`, a
`TypeError`).  The function never returns a value. -/
def errors (tagged : List (Option String)) (actual : List (String × String)) :
    Except PyError (List Nat) :=
  let _ := tagged
  let _ := actual
  .error .nameError

/-- Lines 69-70: `tag_mismatches(tagged, actual)` builds
`set([(tag(i, tagged), tag(i, actual)) for i in len(tagged) if ...])`.
The iterable is `len(tagged)`, an `int`, so iteration raises `TypeError`
on every call (including for empty arguments: `for i in 0` also raises). -/
def tag_mismatches (tagged : List (Option String)) (actual : List (String × String)) :
    Except PyError (List (String × String)) :=
  let _ := tagged
  let _ := actual
  .error .typeError

/-- Check that `p` is an initial segment of `s` (character-level). -/
def startsWith : List Char → List Char → Bool
  | [], _ => true
  | _ :: _, [] => false
  | a :: p, b :: s => a == b && startsWith p s

/-- Check that `p` occurs as a contiguous substring of `s`. -/
def occursIn (p : List Char) : List Char → Bool
  | [] => startsWith p []
  | c :: t => startsWith p (c :: t) || occursIn p t

/-- Count the blank characters of a string. -/
def countSp : List Char → Nat
  | [] => 0
  | c :: t => (if c = ' ' then 1 else 0) + countSp t

/-- Python's `s.split(' ')`: split at every single blank, keeping empty
pieces; the empty string splits to `[""]`. -/
def splitSp : List Char → List (List Char)
  | [] => [[]]
  | c :: t =>
    if c = ' ' then [] :: splitSp t
    else
      match splitSp t with
      | [] => [[c]]
      | h :: r => (c :: h) :: r

/-- Python's `' '.join(l)`: interleave a single blank between the pieces. -/
def joinSp : List (List Char) → List Char
  | [] => []
  | [t] => t
  | t :: t' :: ts => t ++ ' ' :: joinSp (t' :: ts)

/-- Fuelled replacement engine behind `re.sub` for a literal pattern:
scan left to right; at the leftmost occurrence of `p` emit `r` and resume
after the matched span of the original string (matches never overlap and
never read earlier replacements).  One unit of fuel is spent per emitted
piece; since every step consumes at least one input character, fuel equal
to the input length never runs out, so the fuel-exhausted branch (which
returns the rest unchanged) is unreachable from `reSub`. -/
def reSubFuel (p r : List Char) : Nat → List Char → List Char
  | _, [] => []
  | 0, l => l
  | n + 1, c :: t =>
    if startsWith p (c :: t) && !p.isEmpty then
      r ++ reSubFuel p r n (t.drop (p.length - 1))
    else
      c :: reSubFuel p r n t

/-- Characters that Python's `re` module treats specially in a pattern
(outside character classes).  A pattern containing none of them is matched
literally by `re.compile(pattern).sub`, and a replacement containing no
backslash carries no backreference escapes, so on that domain regex
substitution coincides with literal-string substitution.  (`Char.ofNat 123`,
`125` and `92` are the two curly braces and the backslash.) -/
def isRegexMeta (c : Char) : Bool :=
  c = '.' || c = '^' || c = '$' || c = '*' || c = '+' || c = '?' ||
  c = '[' || c = ']' || c = '|' || c = '(' || c = ')' ||
  c = Char.ofNat 123 || c = Char.ofNat 125 || c = Char.ofNat 92

/-- `re.sub(p, r, s)` restricted to the literal domain: it equals Python's
regex substitution only when `p` contains no regex metacharacter (see
`isRegexMeta`) and `r` contains no backslash; a metacharacter pattern such
as "A.B" can match spans (the dot matches the joining blank) that the
literal reading does not, so every theorem below that quantifies over
patches carries these two side conditions.  Python additionally treats an
empty pattern as matching at every boundary — not modelled, no generated
pattern is empty. -/
def reSub (p r s : List Char) : List Char :=
  reSubFuel p r s.length s

/-- Lines 74-79: `apply_patch(patch, corpus_tags)` joins the tags with
blanks, substitutes the match rule by the replacement rule, and splits the
result at blanks again.  `corpus_tags` must be actual strings (a `None` tag
would make `' '.join` raise; only string sequences are modelled), and the
substitution is the literal-domain `reSub`: statements about `apply_patch`
for a variable patch are faithful to the program only under the
metacharacter-free / backslash-free side conditions of `reSub`. -/
def apply_patch (patch : List Char × List Char) (corpus_tags : List (List Char)) :
    List (List Char) :=
  splitSp (reSub patch.1 patch.2 (joinSp corpus_tags))

/-- Lines 81-87: `gen_patches1(tag_a, tag_b, tag_set)` loops over `tag_set`
and builds `' '.join(tag, tag_a)` — but `str.join` takes a single iterable
argument, so the two-argument call raises `TypeError` on the first
iteration.  Only an empty `tag_set` escapes the loop body, returning the
empty patch set. -/
def gen_patches1 (tag_a tag_b : String) (tag_set : List String) :
    Except PyError (List (List Char × List Char)) :=
  let _ := tag_a
  let _ := tag_b
  match tag_set with
  | [] => .ok []
  | _ :: _ => .error .typeError

/-- Lines 102-107: the candidate-pool construction loop.  `patches` starts
as the empty set and the loop body runs `patches.union(gen_patches1(...))` —
`set.union` returns a new set and the result is discarded, so `patches` is
never extended; the loop evaluates each `gen_patches1` call (whose error,
if any, propagates) and leaves `patches` unchanged. -/
def pool_loop (tag_set : List String) (patches : List (List Char × List Char)) :
    List (String × String) → Except PyError (List (List Char × List Char))
  | [] => .ok patches
  | ab :: rest => do
    let _ ← gen_patches1 ab.1 ab.2 tag_set
    pool_loop tag_set patches rest

/-- Lines 110-119: the greedy selection loop.  `while patches:` on an empty
pool never runs, leaving `patches_to_apply = []` and `x` untouched.  On a
non-empty pool the first iteration of the inner `for` computes
`new_x = apply_patch(patch, x)` and then evaluates `len(errors(new_x))` —
`errors` requires two positional arguments, so the one-argument call raises
`TypeError` before any gain is ever compared.  (Past that point the code
would also commit the loop variable `patch` rather than `best_patch` and
call `patches_to_apply.insert(patch)` with one argument where `list.insert`
needs two.) -/
def learn_loop (patches : List (List Char × List Char)) (x : List (List Char)) :
    Except PyError (List (List Char × List Char) × List (List Char)) :=
  match patches with
  | [] => .ok ([], x)
  | p :: _ =>
    let _ := apply_patch p x
    .error .typeError

/-- Lines 90-107 of `main` (after the out-of-scope corpus loading): build
the tag set, the tag counts and the most-likely-tag dict from the initial
corpus, baseline-tag the patch corpus, collect the mismatch pairs, and fold
the candidate pool.  `picks` supplies the values of the `random.sample`
draws by position.  The `while` loop of lines 110-119 is modelled
separately by `learn_loop`; `main_core` never reaches it because
`tag_mismatches` always raises. -/
def main_core (initial_corpus patch_corpus : List (String × String))
    (picks : Nat → String) : Except PyError (List (List Char × List Char)) := do
  let x ← gen_x (most_likely_tag initial_corpus) (get_tagset initial_corpus)
    (patch_corpus.map Prod.fst) picks
  let pairs ← tag_mismatches x patch_corpus
  pool_loop (get_tagset initial_corpus) [] pairs

/-! ### Association-list (dict) lemmas -/

theorem mem_dset {α β : Type} [BEq α] {d : Dict α β} {k : α} {v : β} :
    ∀ p ∈ dset d k v, p = (k, v) ∨ p ∈ d := by
  intro p hp
  unfold dset at hp
  by_cases h : dhas d k = true
  · rw [if_pos h] at hp
    rcases List.mem_map.mp hp with ⟨q, hq, rfl⟩
    by_cases hqk : (q.1 == k) = true
    · left; rw [if_pos hqk]
    · right; rw [if_neg hqk]; exact hq
  · rw [if_neg h] at hp
    rcases List.mem_append.mp hp with hq | hq
    · right; exact hq
    · left; simpa using hq

theorem dget_mem {α β : Type} [BEq α] {d : Dict α β} {k : α} {v : β}
    (h : dget d k = some v) : ∃ k', (k', v) ∈ d := by
  unfold dget at h
  cases hf : d.find? (fun p => p.1 == k) with
  | none => rw [hf] at h; cases h
  | some p =>
    rw [hf] at h
    cases h
    exact ⟨p.1, by simpa using List.mem_of_find?_eq_some hf⟩

/-! ### Lexical-model lemmas -/

theorem max_elem_mem {d : Dict String Nat} {k : String}
    (h : max_elem d = some k) : ∃ n, (k, n) ∈ d := by
  suffices H : ∀ (l : List (String × Nat)) (acc : Option String × Nat),
      (l.foldl (fun acc kv => if kv.2 > acc.2 then (some kv.1, kv.2) else acc) acc).1 = some k →
      acc.1 = some k ∨ ∃ n, (k, n) ∈ l by
    rcases H d ((none : Option String), 0) h with hacc | hmem
    · cases hacc
    · exact hmem
  intro l
  induction l with
  | nil => intro acc h; exact Or.inl h
  | cons kv l ih =>
    intro acc h
    simp only [List.foldl_cons] at h
    rcases ih _ h with hacc | ⟨n, hn⟩
    · by_cases hgt : kv.2 > acc.2
      · rw [if_pos hgt] at hacc
        cases hacc
        exact Or.inr ⟨kv.2, by left⟩
      · rw [if_neg hgt] at hacc
        exact Or.inl hacc
    · exact Or.inr ⟨n, List.mem_cons_of_mem _ hn⟩

/-- Every tag recorded in any inner count dict of `gen_tagcnts corpus` is a
tag of the corpus. -/
theorem gen_tagcnts_tags {corpus : List (String × String)} :
    ∀ p ∈ gen_tagcnts corpus, ∀ q ∈ p.2, q.1 ∈ corpus.map Prod.snd := by
  have seed : ∀ (l : List (String × String)) (d : Dict String (Dict String Nat)),
      (∀ p ∈ d, p.2 = []) →
      ∀ p ∈ l.foldl (fun d wt => dset d wt.1 []) d, p.2 = [] := by
    intro l
    induction l with
    | nil => intro d hd p hp; exact hd p hp
    | cons wt l ih =>
      intro d hd p hp
      refine ih _ ?_ p hp
      intro q hq
      rcases mem_dset q hq with rfl | hmem
      · rfl
      · exact hd q hmem
  have step : ∀ (l : List (String × String)) (T : List String)
      (d : Dict String (Dict String Nat)),
      (∀ p ∈ d, ∀ q ∈ p.2, q.1 ∈ T) → (∀ x ∈ l, x.2 ∈ T) →
      ∀ p ∈ l.foldl
        (fun d wt =>
          match dget d wt.1 with
          | some m =>
            dset d wt.1 (dset m wt.2 (match dget m wt.2 with | some n => n + 1 | none => 0))
          | none => d) d,
        ∀ q ∈ p.2, q.1 ∈ T := by
    intro l T
    induction l with
    | nil => intro d hd _ p hp; exact hd p hp
    | cons wt l ih =>
      intro d hd hl p hp
      simp only [List.foldl_cons] at hp
      refine ih _ ?_ (fun x hx => hl x (List.mem_cons_of_mem _ hx)) p hp
      intro p' hp' q hq
      cases hm : dget d wt.1 with
      | none => simp only [hm] at hp'; exact hd p' hp' q hq
      | some m =>
        simp only [hm] at hp'
        rcases mem_dset p' hp' with rfl | hmem
        · rcases mem_dset q hq with rfl | hqm
          · exact hl wt (by left)
          · rcases dget_mem hm with ⟨k', hk'⟩
            exact hd (k', m) hk' q hqm
        · exact hd p' hmem q hq
  intro p hp
  refine step corpus (corpus.map Prod.snd) _ ?_ (fun x hx => List.mem_map_of_mem _ hx) p hp
  intro p' hp' q hq
  rw [seed corpus [] (by intro _ h; cases h) p' hp'] at hq
  cases hq

/-- A `some` value of `most_likely_tag` is a tag observed in the corpus. -/
theorem most_likely_tag_mem {corpus : List (String × String)} {w : String} {t : String}
    (h : dget (most_likely_tag corpus) w = some (some t)) : t ∈ get_tagset corpus := by
  rcases dget_mem h with ⟨k', hk'⟩
  unfold most_likely_tag at hk'
  rcases List.mem_map.mp hk' with ⟨p, hp, hpe⟩
  have hmax : max_elem p.2 = some t := by
    have := congrArg Prod.snd hpe
    simpa using this
  rcases max_elem_mem hmax with ⟨n, hn⟩
  exact gen_tagcnts_tags p hp (t, n) hn

/-! ### Join / split / substitution lemmas -/

theorem countSp_append (a b : List Char) : countSp (a ++ b) = countSp a + countSp b := by
  induction a with
  | nil => simp [countSp]
  | cons c a ih => simp [countSp, ih]; omega

theorem splitSp_length (s : List Char) : (splitSp s).length = countSp s + 1 := by
  induction s with
  | nil => rfl
  | cons c t ih =>
    by_cases hc : c = ' '
    · simp [splitSp, countSp, hc, ih]
      omega
    · cases hs : splitSp t with
      | nil => rw [hs] at ih; simp at ih
      | cons h r =>
        rw [hs] at ih
        simp only [splitSp, if_neg hc, hs, countSp]
        simp only [List.length_cons] at ih ⊢
        simp [hc, ih]

theorem startsWith_append {p s : List Char} (h : startsWith p s = true) :
    p ++ s.drop p.length = s := by
  induction p generalizing s with
  | nil => simp
  | cons a p ih =>
    cases s with
    | nil => simp [startsWith] at h
    | cons b t =>
      simp only [startsWith, Bool.and_eq_true, beq_iff_eq] at h
      obtain ⟨rfl, h⟩ := h
      simpa using ih h

theorem reSubFuel_countSp {p r : List Char} (hpr : countSp p = countSp r) :
    ∀ (fuel : Nat) (s : List Char), countSp (reSubFuel p r fuel s) = countSp s := by
  intro fuel
  induction fuel with
  | zero => intro s; cases s <;> rfl
  | succ n ih =>
    intro s
    cases s with
    | nil => rfl
    | cons c t =>
      by_cases hcond : (startsWith p (c :: t) && !p.isEmpty) = true
      · simp only [reSubFuel, if_pos hcond]
        simp only [Bool.and_eq_true, Bool.not_eq_eq_eq_not, Bool.not_true] at hcond
        obtain ⟨hsw, hne⟩ := hcond
        cases p with
        | nil => simp [List.isEmpty] at hne
        | cons a p' =>
          have key := startsWith_append hsw
          have hdrop : (c :: t).drop (a :: p').length = t.drop p'.length := by
            simp [List.drop]
          rw [hdrop] at key
          have hlen : (a :: p').length - 1 = p'.length := by simp
          rw [countSp_append, ih, hlen]
          calc countSp r + countSp (t.drop p'.length)
              = countSp (a :: p') + countSp (t.drop p'.length) := by rw [hpr]
            _ = countSp ((a :: p') ++ t.drop p'.length) := (countSp_append _ _).symm
            _ = countSp (c :: t) := by rw [key]
      · simp only [reSubFuel, if_neg hcond, countSp, ih]

theorem reSub_countSp {p r : List Char} (hpr : countSp p = countSp r) (s : List Char) :
    countSp (reSub p r s) = countSp s :=
  reSubFuel_countSp hpr s.length s

theorem reSubFuel_not_occurs {p : List Char} (r : List Char) :
    ∀ (fuel : Nat) (s : List Char), occursIn p s = false → reSubFuel p r fuel s = s := by
  intro fuel
  induction fuel with
  | zero => intro s _; cases s <;> rfl
  | succ n ih =>
    intro s hocc
    cases s with
    | nil => rfl
    | cons c t =>
      simp only [occursIn, Bool.or_eq_false_iff] at hocc
      obtain ⟨hsw, hocct⟩ := hocc
      have hcond : (startsWith p (c :: t) && !p.isEmpty) = false := by
        simp [hsw]
      simp only [reSubFuel, if_neg (by simp [hcond] : ¬ (startsWith p (c :: t) && !p.isEmpty) = true)]
      rw [ih t hocct]

theorem splitSp_no_space {s : List Char} (h : countSp s = 0) : splitSp s = [s] := by
  induction s with
  | nil => rfl
  | cons c t ih =>
    simp only [countSp] at h
    have hc : ¬ c = ' ' := by
      intro hc; rw [if_pos hc] at h; omega
    rw [if_neg hc] at h
    have h' : countSp t = 0 := by omega
    simp only [splitSp, if_neg hc, ih h']

theorem splitSp_append_space {a : List Char} (s : List Char) (h : countSp a = 0) :
    splitSp (a ++ ' ' :: s) = a :: splitSp s := by
  induction a with
  | nil => simp [splitSp]
  | cons c t ih =>
    simp only [countSp] at h
    have hc : ¬ c = ' ' := by
      intro hc; rw [if_pos hc] at h; omega
    rw [if_neg hc] at h
    have h' : countSp t = 0 := by omega
    have := ih h'
    simp only [List.cons_append, splitSp, if_neg hc, List.append_eq, this]

theorem splitSp_joinSp {tags : List (List Char)} (hne : tags ≠ [])
    (hsp : ∀ t ∈ tags, countSp t = 0) : splitSp (joinSp tags) = tags := by
  induction tags with
  | nil => exact absurd rfl hne
  | cons t ts ih =>
    cases ts with
    | nil => exact splitSp_no_space (hsp t (by left))
    | cons t' ts' =>
      have h1 : countSp t = 0 := hsp t (by left)
      have h2 : splitSp (joinSp (t' :: ts')) = t' :: ts' :=
        ih (by simp) (fun x hx => hsp x (List.mem_cons_of_mem _ hx))
      simp only [joinSp, splitSp_append_space _ h1, h2]

theorem joinSp_countSp {tags : List (List Char)} (hne : tags ≠ [])
    (hsp : ∀ t ∈ tags, countSp t = 0) : countSp (joinSp tags) + 1 = tags.length := by
  induction tags with
  | nil => exact absurd rfl hne
  | cons t ts ih =>
    cases ts with
    | nil => simp [joinSp, hsp t (by left)]
    | cons t' ts' =>
      have h1 : countSp t = 0 := hsp t (by left)
      have h2 := ih (by simp) (fun x hx => hsp x (List.mem_cons_of_mem _ hx))
      simp only [List.length_cons] at h2 ⊢
      simp [joinSp, countSp_append, countSp, h1]
      omega

/-! ### Claim theorems -/

/-- C1: the claim says each iteration selects a strictly-max-gain candidate
(with deterministic tie-breaking) and commits its transformed sequence.  In
the code the selection loop never gets that far: with an empty pool the
`while` loop does nothing, and with a non-empty pool the very first
candidate evaluation calls `errors(new_x)` with one argument where two are
required, raising `TypeError` — no gain is ever computed, no candidate is
ever selected or committed. -/
theorem learn_loop_never_selects :
    (∀ x, learn_loop [] x = .ok ([], x)) ∧
    (∀ p ps x, learn_loop (p :: ps) x = .error .typeError) :=
  ⟨fun _ => rfl, fun _ _ _ => rfl⟩

/-- C2: the claim says the recorded `error_count` values strictly decrease
and learning stops at non-positive best gain.  The code records no error
trace at all: for every pair of corpora and every outcome of the random
draws, `main` raises an error (always inside `tag_mismatches`, which
iterates over the integer `len(tagged)`) before a single candidate is
evaluated, so no rule is ever accepted and no error count recorded. -/
theorem main_core_always_raises (initial_corpus patch_corpus : List (String × String))
    (picks : Nat → String) :
    ∃ e, main_core initial_corpus patch_corpus picks = .error e := by
  unfold main_core
  cases h : gen_x (most_likely_tag initial_corpus) (get_tagset initial_corpus)
      (patch_corpus.map Prod.fst) picks with
  | error e => exact ⟨e, rfl⟩
  | ok x => exact ⟨.typeError, rfl⟩

/-- C3: the claim describes the candidate pool as the union of template
instantiations over observed mismatch pairs.  In the code (i) `tag_mismatches`
raises `TypeError` on every input, (ii) `gen_patches1` raises `TypeError`
for every non-empty tag set (`str.join` called with two arguments) and
returns the empty set for an empty tag set, and (iii) even granting mismatch
pairs, the loop discards `set.union`'s return value, so the pool can only
ever come out empty (or the construction raises). -/
theorem candidate_pool_never_grows :
    (∀ (tagged : List (Option String)) (actual : List (String × String)),
      tag_mismatches tagged actual = .error .typeError) ∧
    (∀ (a b z : String) (zs : List String),
      gen_patches1 a b (z :: zs) = .error .typeError) ∧
    gen_patches1 "NN" "VB" [] = .ok [] ∧
    (∀ (pairs : List (String × String)) (tag_set : List String)
      (patches : List (List Char × List Char)),
      pool_loop tag_set patches pairs = .ok patches ∨
      ∃ e, pool_loop tag_set patches pairs = .error e) := by
  refine ⟨fun _ _ => rfl, fun _ _ _ _ => rfl, rfl, ?_⟩
  intro pairs tag_set patches
  induction pairs with
  | nil => exact Or.inl rfl
  | cons ab rest ih =>
    cases tag_set with
    | nil => exact ih
    | cons z zs => exact Or.inr ⟨.typeError, rfl⟩

/-- C4: the claim (and the code's own comment on `gen_tagcnts`) requires
exact occurrence counts, `dog → (NN : 2, VB : 1)` on the spec's concrete
corpus.  The code's update `d[w][t] = (d[w][t]+1) if (t in d[w]) else 0`
records a first occurrence as `0`, so the counts come out one too small:
`dog → (NN : 1, VB : 0)`; `most_likely_tag("dog")` still happens to be
`"NN"`, while `most_likely_tag("Run")` is Python `None` because `Run`'s only
count is `0` and `max_elem` only accepts strictly positive values. -/
theorem gen_tagcnts_off_by_one :
    dget (gen_tagcnts [("dog","NN"),("dog","NN"),("dog","VB"),("Run","VB")]) "dog"
      = some [("NN", 1), ("VB", 0)] ∧
    dget (most_likely_tag [("dog","NN"),("dog","NN"),("dog","VB"),("Run","VB")]) "dog"
      = some (some "NN") ∧
    dget (most_likely_tag [("dog","NN"),("dog","NN"),("dog","VB"),("Run","VB")]) "Run"
      = some none := by decide

/-- C9: the claim says the scorer returns the number of positions where the
predicted tag differs from the gold tag.  The code's `errors` never returns
anything: its comprehension iterates over `len(x)` where `x` is unbound in
the function and at module scope, so every call — any predicted and gold
sequences, equal lengths included — raises `NameError`. -/
theorem errors_always_raises :
    ∀ (tagged : List (Option String)) (actual : List (String × String)),
      errors tagged actual = .error .nameError :=
  fun _ _ => rfl

/-- C5 counterexample: on the spec's own training corpus the unseen
lowercase word "run" gets whatever the unseeded random draw yields — here
the legal draw "VB" from the tag set — and not the fixed corpus-wide most
frequent tag "NN" that the claim requires. -/
theorem initial_tagger_random_draw_escapes_default :
    "VB" ∈ get_tagset [("dog","NN"),("dog","NN"),("dog","VB"),("Run","VB")] ∧
    initial_tagger "run"
      (most_likely_tag [("dog","NN"),("dog","NN"),("dog","VB"),("Run","VB")])
      (get_tagset [("dog","NN"),("dog","NN"),("dog","VB"),("Run","VB")]) "VB"
      = .ok (some "VB") ∧
    (some "VB" : Option String) ≠ some "NN" := by decide

/-- C5 (amended): the baseline tagger's fallback chain on a nonempty word is
seen word ↦ its `most_likely_tag` entry, unseen capitalised word ↦ the
proper-noun tag, and any other unseen word ↦ the value drawn by the random
sampler — not a fixed deterministic default tag. -/
theorem initial_tagger_fallback_chain (w : String) (mlt : Dict String (Option String))
    (tag_set : List String) (pick : String) (c : Char) (cs : List Char)
    (hw : w.data = c :: cs) :
    initial_tagger w mlt tag_set pick =
      match dget mlt w with
      | some v => .ok v
      | none => .ok (some (if 'A' ≤ c ∧ c ≤ 'Z' then BROWNTAGS_PROPERNOUN else pick)) := by
  unfold initial_tagger
  cases dget mlt w with
  | some v => rfl
  | none =>
    simp only [hw]
    split <;> rfl

/-- C5 witness: the amended chain evaluated at the unseen lowercase word
"run" with draw "VB". -/
theorem initial_tagger_fallback_chain_witness :
    "run".data = 'r' :: ['u', 'n'] ∧
    initial_tagger "run" [("dog", some "NN")] ["NN", "VB"] "VB" =
      match dget [("dog", some "NN")] "run" with
      | some v => .ok v
      | none => .ok (some (if 'A' ≤ 'r' ∧ 'r' ≤ 'Z' then BROWNTAGS_PROPERNOUN else "VB")) :=
  ⟨by decide,
    initial_tagger_fallback_chain "run" [("dog", some "NN")] ["NN", "VB"] "VB" 'r'
      ['u', 'n'] (by decide)⟩

/-- C6 counterexample: the baseline pass is not a function of the corpora
alone.  With an empty lexical model and the tag set of the claim, two runs
whose random draws differ ("NN" versus "VB", both legal draws from the tag
set) produce different baseline sequences for the same input word list, so
downstream byte-identical outputs are not guaranteed. -/
theorem gen_x_depends_on_random_draws :
    "NN" ∈ (["NN", "VB"] : List String) ∧
    "VB" ∈ (["NN", "VB"] : List String) ∧
    gen_x [] ["NN", "VB"] ["run"] (fun _ => "NN")
      ≠ gen_x [] ["NN", "VB"] ["run"] (fun _ => "VB") := by decide

/-- C6 (amended): determinism holds exactly when the random branch is never
consulted: if every word of the patch corpus is either in the lexical model
or capitalised, the baseline sequence does not depend on the draws. -/
theorem gen_x_deterministic_without_random (mlt : Dict String (Option String))
    (tag_set : List String) (ws : List String)
    (h : ∀ w ∈ ws, dhas mlt w = true ∨ startsUpper w = true)
    (picks picks' : Nat → String) :
    gen_x mlt tag_set ws picks = gen_x mlt tag_set ws picks' := by
  induction ws generalizing picks picks' with
  | nil => rfl
  | cons w ws ih =>
    have hw := h w (by left)
    have hrest : ∀ w' ∈ ws, dhas mlt w' = true ∨ startsUpper w' = true :=
      fun w' hw' => h w' (List.mem_cons_of_mem _ hw')
    have hhead : initial_tagger w mlt tag_set (picks 0)
        = initial_tagger w mlt tag_set (picks' 0) := by
      unfold initial_tagger
      cases hm : dget mlt w with
      | some v => rfl
      | none =>
        rcases hw with hw | hw
        · rw [dhas, hm] at hw
          simp at hw
        · unfold startsUpper at hw
          cases hd : w.data with
          | nil =>
            simp only [hd] at hw
            exact Bool.noConfusion hw
          | cons c cs =>
            simp only [hd, decide_eq_true_eq] at hw
            simp only [hd, if_pos hw]
    have htail := ih hrest (fun i => picks (i + 1)) (fun i => picks' (i + 1))
    simp only [gen_x, hhead, htail]

/-- C6 witness: with a model containing "dog" and the capitalised unseen
word "Cat", two runs with different draw streams agree. -/
theorem gen_x_deterministic_without_random_witness :
    (∀ w ∈ (["dog", "Cat"] : List String),
      dhas [("dog", some "NN")] w = true ∨ startsUpper w = true) ∧
    gen_x [("dog", some "NN")] ["NN"] ["dog", "Cat"] (fun _ => "NN")
      = gen_x [("dog", some "NN")] ["NN"] ["dog", "Cat"] (fun _ => "VB") :=
  ⟨by decide,
    gen_x_deterministic_without_random [("dog", some "NN")] ["NN"] ["dog", "Cat"]
      (by decide) (fun _ => "NN") (fun _ => "VB")⟩

/-- C7 counterexample: a patch is an arbitrary (match, replacement) string
pair, and a replacement containing a blank changes the number of tokens:
applying ("NN", "A B") to the one-tag sequence ["NN"] yields the two-tag
sequence ["A", "B"]. -/
theorem apply_patch_changes_length :
    apply_patch (['N', 'N'], ['A', ' ', 'B']) [['N', 'N']] = [['A'], ['B']] ∧
    (apply_patch (['N', 'N'], ['A', ' ', 'B']) [['N', 'N']]).length
      ≠ ([['N', 'N']] : List (List Char)).length := by decide

/-- C7 (amended): length is preserved for every patch whose match string is
free of regex metacharacters and whose replacement is free of backslash
escapes (the domain on which `re.sub` is literal substitution, so the
statement transfers to the program), provided match and replacement carry
the same number of blanks — in particular for all patches of the
template-generated shape "z A" ↦ "z B" with plain blank-free tags — on
every nonempty sequence of blank-free tags.  Outside these conditions the
program can change the length: a blank in the replacement splits a token,
and a metacharacter such as the dot can match the joining blank itself. -/
theorem apply_patch_length_of_balanced (mr rr : List Char) (tags : List (List Char))
    (hlit : ∀ c ∈ mr, isRegexMeta c = false) (hesc : ∀ c ∈ rr, c ≠ Char.ofNat 92)
    (hcnt : countSp mr = countSp rr) (hne : tags ≠ [])
    (hsp : ∀ t ∈ tags, countSp t = 0) :
    (apply_patch (mr, rr) tags).length = tags.length := by
  unfold apply_patch
  rw [splitSp_length, reSub_countSp hcnt]
  have := joinSp_countSp hne hsp
  omega

/-- C7 witness: the metacharacter-free, blank-balanced patch "NN" ↦ "JJ"
preserves the length of ["VB", "NN"]. -/
theorem apply_patch_length_of_balanced_witness :
    (∀ c ∈ (['N', 'N'] : List Char), isRegexMeta c = false) ∧
    (∀ c ∈ (['J', 'J'] : List Char), c ≠ Char.ofNat 92) ∧
    countSp ['N', 'N'] = countSp ['J', 'J'] ∧
    ([['V', 'B'], ['N', 'N']] : List (List Char)) ≠ [] ∧
    (∀ t ∈ ([['V', 'B'], ['N', 'N']] : List (List Char)), countSp t = 0) ∧
    (apply_patch (['N', 'N'], ['J', 'J']) [['V', 'B'], ['N', 'N']]).length
      = ([['V', 'B'], ['N', 'N']] : List (List Char)).length :=
  ⟨by decide, by decide, by decide, by decide, by decide,
    apply_patch_length_of_balanced _ _ _ (by decide) (by decide) (by decide) (by decide)
      (by decide)⟩

/-- C8 counterexample: on the empty sequence no rule matches at any position
(vacuously), yet `apply_patch` returns `[""]`, not the empty sequence: the
join-substitute-split round trip is not the identity there. -/
theorem apply_patch_empty_seq_not_id :
    occursIn ['A'] (joinSp []) = false ∧
    apply_patch (['A'], ['B']) ([] : List (List Char)) = [[]] ∧
    ([[]] : List (List Char)) ≠ ([] : List (List Char)) := by decide

/-- C8 (amended): if the match string is free of regex metacharacters and
the replacement free of backslash escapes (so `re.sub` is literal
substitution and literal non-occurrence means the regex matches nowhere),
and the match string does not occur in the blank-joined tag string, the
patch leaves a nonempty sequence of blank-free tags unchanged.  Outside the
metacharacter-free domain a pattern such as "A.B" can match "A B" without
occurring in it literally, and on the empty sequence the round trip yields
[""] (the counterexample). -/
theorem apply_patch_no_occurrence_id (mr rr : List Char) (tags : List (List Char))
    (hlit : ∀ c ∈ mr, isRegexMeta c = false) (hesc : ∀ c ∈ rr, c ≠ Char.ofNat 92)
    (hocc : occursIn mr (joinSp tags) = false) (hne : tags ≠ [])
    (hsp : ∀ t ∈ tags, countSp t = 0) :
    apply_patch (mr, rr) tags = tags := by
  unfold apply_patch reSub
  rw [reSubFuel_not_occurs rr _ _ hocc, splitSp_joinSp hne hsp]

/-- C8 witness: the metacharacter-free patch "XX" ↦ "Y" does not occur in
"A B" and leaves ["A", "B"] unchanged. -/
theorem apply_patch_no_occurrence_id_witness :
    (∀ c ∈ (['X', 'X'] : List Char), isRegexMeta c = false) ∧
    (∀ c ∈ (['Y'] : List Char), c ≠ Char.ofNat 92) ∧
    occursIn ['X', 'X'] (joinSp [['A'], ['B']]) = false ∧
    apply_patch (['X', 'X'], ['Y']) [['A'], ['B']] = [['A'], ['B']] :=
  ⟨by decide, by decide, by decide,
    apply_patch_no_occurrence_id _ _ _ (by decide) (by decide) (by decide) (by decide)
      (by decide)⟩

/-- C10 counterexample: the baseline tagger assigns "NP" to unseen
capitalised words whether or not "NP" was observed in training, and it can
even assign Python `None` (a seen word whose counts are all the
zero-initialised `0`, so `max_elem` rejects them all). -/
theorem baseline_tag_escapes_tagset :
    initial_tagger "Cat" (most_likely_tag [("dog","VB")]) (get_tagset [("dog","VB")]) "VB"
      = .ok (some "NP") ∧
    "NP" ∉ get_tagset [("dog","VB")] ∧
    initial_tagger "dog" (most_likely_tag [("dog","NN")]) (get_tagset [("dog","NN")]) "NN"
      = .ok none := by decide

/-- C10 (amended): when the baseline tagger, run over the model built from a
training corpus with a draw taken from that corpus's tag set, assigns an
actual string tag, that tag is either in the tag set or is the hard-coded
proper-noun tag "NP". -/
theorem initial_tagger_tag_cases (corpus : List (String × String)) (w pick t : String)
    (hpick : pick ∈ get_tagset corpus)
    (h : initial_tagger w (most_likely_tag corpus) (get_tagset corpus) pick
      = .ok (some t)) :
    t ∈ get_tagset corpus ∨ t = BROWNTAGS_PROPERNOUN := by
  unfold initial_tagger at h
  cases hm : dget (most_likely_tag corpus) w with
  | some v =>
    simp only [hm] at h
    have hv : v = some t := by injection h
    subst hv
    exact Or.inl (most_likely_tag_mem hm)
  | none =>
    simp only [hm] at h
    cases hd : w.data with
    | nil =>
      simp only [hd] at h
      exact Except.noConfusion h
    | cons c cs =>
      simp only [hd] at h
      by_cases hAZ : 'A' ≤ c ∧ c ≤ 'Z'
      · rw [if_pos hAZ] at h
        have : BROWNTAGS_PROPERNOUN = t := by
          injection h with h'; injection h'
        exact Or.inr this.symm
      · rw [if_neg hAZ] at h
        have : pick = t := by
          injection h with h'; injection h'
        exact this ▸ Or.inl hpick

/-- C10 witness: a seen word of a two-occurrence corpus gets its observed
tag, which the amended statement places in the tag set. -/
theorem initial_tagger_tag_cases_witness :
    "NN" ∈ get_tagset [("a","NN"),("a","NN")] ∧
    ("NN" ∈ get_tagset [("a","NN"),("a","NN")] ∨ "NN" = BROWNTAGS_PROPERNOUN) :=
  ⟨by decide,
    initial_tagger_tag_cases [("a","NN"),("a","NN")] "a" "NN" "NN" (by decide) (by decide)⟩

end Brill
